import Mathlib

/-!
Verification of the file_tag_manager repository.

This file gives a shallow embedding of the two core modules,
file_tag_manager/core/file_manager.py and file_tag_manager/core/tag_manager.py,
and proves the frozen claims about them.  Paths are Lean String values; all
character-level operations (splitting, stripping, glob matching) are
implemented directly on List Char so that concrete instances evaluate by
kernel reduction.
-/

namespace FileTagManager

/-- Replace every backslash by a forward slash, the normalization the source
applies to patterns and relative paths (str.replace with backslash, slash). -/
def slashifyChars (cs : List Char) : List Char :=
  cs.map (fun c => if c == '\\' then '/' else c)

/-- String-level wrapper for slashifyChars. -/
def slashify (s : String) : String := String.mk (slashifyChars s.data)

/-- Python str.lstrip with an explicit character set: drop leading characters
belonging to strip. -/
def lstripChars (strip : List Char) (s : List Char) : List Char :=
  s.dropWhile (fun c => strip.contains c)

/-- Python str.rstrip with an explicit character set: drop trailing characters
belonging to strip. -/
def rstripChars (strip : List Char) (s : List Char) : List Char :=
  (s.reverse.dropWhile (fun c => strip.contains c)).reverse

/-- Python str.startswith on character lists: the second list is an initial
segment of the first. -/
def startsWithChars : List Char → List Char → Bool
  | _, [] => true
  | [], _ :: _ => false
  | c :: s, p :: ps => c == p && startsWithChars s ps

/-- Python str.startswith on strings. -/
def strStartsWith (s pre : String) : Bool := startsWithChars s.data pre.data

/-- Python str.split on the slash separator; empty fields are kept, and the
empty string splits to one empty field, as in Python. -/
def splitSlash : List Char → List (List Char)
  | [] => [[]]
  | c :: rest =>
    let r := splitSlash rest
    if c == '/' then [] :: r
    else
      match r with
      | [] => [[c]]
      | g :: gs => (c :: g) :: gs

/-- Join path components with slashes (Python str.join with a slash). -/
def joinSlash : List (List Char) → List Char
  | [] => []
  | [g] => g
  | g :: gs => g ++ '/' :: joinSlash gs

/-- One member of a bracket character class in a glob pattern: a literal
character or an inclusive character range. -/
inductive ClassItem where
  | lit (c : Char)
  | range (lo hi : Char)
deriving DecidableEq

/-- Whether a character belongs to one class member; ranges compare code
points, as the compiled regular expression does in the source. -/
def classItemMatch (c : Char) : ClassItem → Bool
  | ClassItem.lit d => c == d
  | ClassItem.range lo hi => decide (lo.val ≤ c.val) && decide (c.val ≤ hi.val)

/-- Parse the body of a bracket class (after the opening bracket, the optional
negation marker and the optional leading literal closing bracket): members up
to the closing bracket, or none when the class is unterminated. -/
def parseClassBody : List Char → Option (List ClassItem × List Char)
  | [] => none
  | ']' :: rest => some ([], rest)
  | c :: '-' :: d :: rest2 =>
    if d == ']' then some ([ClassItem.lit c, ClassItem.lit '-'], rest2)
    else
      match parseClassBody rest2 with
      | none => none
      | some (items, rem) => some (ClassItem.range c d :: items, rem)
  | c :: rest =>
    match parseClassBody rest with
    | none => none
    | some (items, rem) => some (ClassItem.lit c :: items, rem)

/-- Continue parsing a bracket class after the negation marker was handled: a
leading closing bracket is a literal member, then the body follows. -/
def parseCharClassTail (neg : Bool) (cs : List Char) : Option (Bool × List ClassItem × List Char) :=
  match cs with
  | ']' :: rest =>
    match parseClassBody rest with
    | none => none
    | some (items, rem) => some (neg, ClassItem.lit ']' :: items, rem)
  | other =>
    match parseClassBody other with
    | none => none
    | some (items, rem) => some (neg, items, rem)

/-- Parse a full bracket class from the pattern suffix following the opening
bracket: negation marker, then a leading closing bracket taken literally, then
the body.  Returns the negation flag, the members, and the pattern remainder;
none when unterminated (the source then treats the bracket literally). -/
def parseCharClass (cs : List Char) : Option (Bool × List ClassItem × List Char) :=
  match cs with
  | '!' :: rest => parseCharClassTail true rest
  | other => parseCharClassTail false other

theorem parseClassBody_length_aux : ∀ n (cs : List Char), cs.length = n →
    ∀ (items : List ClassItem) (rem : List Char),
    parseClassBody cs = some (items, rem) → rem.length < cs.length := by
  intro n
  induction n using Nat.strong_induction_on with
  | _ n ihn =>
    intro cs hlen items rem h
    rw [parseClassBody.eq_def] at h
    split at h
    · exact absurd h (by simp)
    · cases h
      simp
    · rename_i x1 c d rest2 hnec
      split at h
      · cases h
        simp only [List.length_cons]
        omega
      · split at h
        · exact absurd h (by simp)
        · rename_i items2 rem2 heq
          cases h
          have hr : rest2.length < n := by
            simp only [List.length_cons] at hlen
            omega
          have := ihn rest2.length hr rest2 rfl _ _ heq
          simp only [List.length_cons]
          omega
    · rename_i x1 c rest hshape1 hshape2
      split at h
      · exact absurd h (by simp)
      · rename_i items2 rem2 heq
        cases h
        have hr : rest.length < n := by
          simp only [List.length_cons] at hlen
          omega
        have := ihn rest.length hr rest rfl _ _ heq
        simp only [List.length_cons]
        omega

theorem parseClassBody_length (cs : List Char) (items : List ClassItem) (rem : List Char)
    (h : parseClassBody cs = some (items, rem)) : rem.length < cs.length :=
  parseClassBody_length_aux cs.length cs rfl items rem h

theorem parseCharClassTail_length (neg : Bool) (cs : List Char) (neg2 : Bool)
    (items : List ClassItem) (rem : List Char)
    (h : parseCharClassTail neg cs = some (neg2, items, rem)) : rem.length < cs.length := by
  simp only [parseCharClassTail] at h
  split at h
  · split at h
    · exact absurd h (by simp)
    next items2 rem2 hbody =>
      cases h
      have h1 := parseClassBody_length _ _ _ hbody
      simp only [List.length_cons]
      omega
  · split at h
    · exact absurd h (by simp)
    next items2 rem2 hbody =>
      cases h
      exact parseClassBody_length _ _ _ hbody

theorem parseCharClass_length (cs : List Char) (neg : Bool) (items : List ClassItem)
    (rem : List Char) (h : parseCharClass cs = some (neg, items, rem)) :
    rem.length < cs.length := by
  simp only [parseCharClass] at h
  split at h
  · have h1 := parseCharClassTail_length _ _ _ _ _ h
    simp only [List.length_cons]
    omega
  · exact parseCharClassTail_length _ _ _ _ _ h

/-- One token of a glob pattern: a star, a question mark, a literal character,
or a bracket character class. -/
inductive GlobTok where
  | star
  | qmark
  | lit (c : Char)
  | cls (neg : Bool) (items : List ClassItem)
deriving DecidableEq

/-- Tokenize a glob pattern as fnmatch.translate reads it: a star and a
question mark are wildcards, a bracket opens a character class (falling back
to a literal bracket when the class is unterminated), anything else is a
literal character.  The fuel argument only makes the recursion structural
(each step consumes at least one pattern character, so the fuel used at the
entry point below never runs out; parseCharClass_length is the bound). -/
def tokenizeGlobFuel : Nat → List Char → List GlobTok
  | 0, _ => []
  | _ + 1, [] => []
  | fuel + 1, c :: ps =>
    if c == '*' then GlobTok.star :: tokenizeGlobFuel fuel ps
    else if c == '?' then GlobTok.qmark :: tokenizeGlobFuel fuel ps
    else if c == '[' then
      (match parseCharClass ps with
       | none => GlobTok.lit '[' :: tokenizeGlobFuel fuel ps
       | some (neg, items, rem) => GlobTok.cls neg items :: tokenizeGlobFuel fuel rem)
    else GlobTok.lit c :: tokenizeGlobFuel fuel ps

/-- Tokenization entry point with adequate fuel. -/
def tokenizeGlob (cs : List Char) : List GlobTok := tokenizeGlobFuel (cs.length + 1) cs

/-- The fuel argument of tokenizeGlobFuel is irrelevant as long as it exceeds
the pattern length, so tokenizeGlob never truncates a pattern. -/
theorem tokenizeGlobFuel_adequate : ∀ fuel fuel2 (cs : List Char), cs.length < fuel →
    cs.length < fuel2 → tokenizeGlobFuel fuel cs = tokenizeGlobFuel fuel2 cs := by
  intro fuel
  induction fuel with
  | zero => intro fuel2 cs h1 h2; omega
  | succ fuel ih =>
    intro fuel2 cs h1 h2
    match fuel2, cs with
    | 0, _ => omega
    | fuel2 + 1, [] => rfl
    | fuel2 + 1, c :: ps =>
      simp only [List.length_cons] at h1 h2
      simp only [tokenizeGlobFuel]
      have hp1 : ps.length < fuel := by omega
      have hp2 : ps.length < fuel2 := by omega
      split_ifs
      · rw [ih fuel2 ps hp1 hp2]
      · rw [ih fuel2 ps hp1 hp2]
      · cases hcls : parseCharClass ps with
        | none => simp only [hcls]; rw [ih fuel2 ps hp1 hp2]
        | some t =>
          obtain ⟨neg, items, rem⟩ := t
          have hlen := parseCharClass_length _ _ _ _ hcls
          simp only [hcls]
          rw [ih fuel2 rem (by omega) (by omega)]
      · rw [ih fuel2 ps hp1 hp2]

/-- All suffixes of a character list, longest first, the list itself and the
empty suffix included. -/
def suffixesList : List Char → List (List Char)
  | [] => [[]]
  | c :: s => (c :: s) :: suffixesList s

/-- Matching of a tokenized glob pattern against a character list, with the
semantics of the regular expression fnmatch.translate produces: a star (the
regex dot-star in DOTALL mode) matches any sequence of characters, separators
included, so the remaining tokens must match some suffix; a question mark
matches exactly one character, a class one character from (or outside) its
members, and the whole string must be consumed (fullmatch). -/
def globMatchToks : List GlobTok → List Char → Bool
  | [], s => s.isEmpty
  | GlobTok.star :: ps, s => (suffixesList s).any (fun t => globMatchToks ps t)
  | GlobTok.qmark :: ps, s =>
    (match s with
     | [] => false
     | _ :: s2 => globMatchToks ps s2)
  | GlobTok.cls neg items :: ps, s =>
    (match s with
     | [] => false
     | c :: s2 => (neg != items.any (classItemMatch c)) && globMatchToks ps s2)
  | GlobTok.lit p :: ps, s =>
    (match s with
     | [] => false
     | c :: s2 => (p == c) && globMatchToks ps s2)

/-- Python fnmatch.fnmatch (POSIX case normalization is the identity): does
the name match the glob pattern. -/
def fnmatchB (name pat : String) : Bool :=
  globMatchToks (tokenizeGlob pat.data) name.data

/-- Every segment suffix of a relative path: the loop in the source joining
path_parts from index i for each i, used by the unanchored matching of
_should_include_file. -/
def segmentSubPaths (rel : List Char) : List (List Char) :=
  let parts := splitSlash rel
  (List.range parts.length).map (fun i => joinSlash (parts.drop i))

/-- Every accumulated leading path of a relative path: the loop in the source
extending current_path one segment at a time, used by the unanchored exclude
matching of _should_include_directory. -/
def segmentLeadPaths (rel : List Char) : List (List Char) :=
  let parts := splitSlash rel
  (List.range parts.length).map (fun i => joinSlash (parts.take (i + 1)))

/-- Matching of one already backslash-normalized pattern against a relative
file path, as in _should_include_file: an anchored pattern (leading slash) is
matched against the whole relative path after stripping its leading slashes;
an unanchored pattern is matched against every segment suffix of the path. -/
def fileMatchesPattern (rel : String) (pat : String) : Bool :=
  if strStartsWith pat "/" then
    fnmatchB rel (String.mk (lstripChars ['/'] pat.data))
  else
    (segmentSubPaths rel.data).any (fun sub => fnmatchB (String.mk sub) pat)

/-- One exclude pattern of _should_include_file matched against a relative
file path: the source normalizes backslashes and strips leading exclamation
marks from the pattern before matching. -/
def excludeMatchesFile (rel : String) (pat : String) : Bool :=
  fileMatchesPattern rel (String.mk (lstripChars ['!'] (slashifyChars pat.data)))

/-- Reinclude patterns: include-list entries that start with the double
negation marker, backslashes normalized and the marker stripped, as in the
separation loop at the top of _should_include_file. -/
def reincludePatterns (includePats : List String) : List String :=
  ((includePats.map slashify).filter (fun p => strStartsWith p "!!")).map
    (fun p => String.mk (p.data.drop 2))

/-- Ordinary include patterns: include-list entries without the double
negation marker, backslashes normalized. -/
def normalIncludePatterns (includePats : List String) : List String :=
  (includePats.map slashify).filter (fun p => !(strStartsWith p "!!"))

/-- FileManager._should_include_file, phrased over the path already made
relative to the root (the source first computes os.path.relpath).  The
source loops stop at the first match; since the loops have no effect other
than their boolean outcome, existential (any) semantics is an equivalent
embedding of the same decision. -/
def should_include_file_rel (includePats excludePats : List String) (rel0 : String) : Bool :=
  let rel := slashify rel0
  let isExcluded := excludePats.any (fun p => excludeMatchesFile rel p)
  if isExcluded then
    (reincludePatterns includePats).any (fun p => fileMatchesPattern rel p)
  else
    (normalIncludePatterns includePats).any (fun p => fileMatchesPattern rel p)

/-- Relative path of p with respect to root for paths lying at or under the
root, the only inputs the claims exercise (os.path.relpath on unrelated
inputs builds parent-directory chains no claim touches). -/
def relpathUnder (root p : String) : String :=
  if p == root then "."
  else if strStartsWith p (root ++ "/") then String.mk (p.data.drop (root.data.length + 1))
  else p

/-- FileManager._should_include_file on an absolute path and root. -/
def should_include_file (includePats excludePats : List String) (root p : String) : Bool :=
  should_include_file_rel includePats excludePats (relpathUnder root p)

/-- One exclude pattern of _should_include_directory matched against a
relative directory path: the pattern is backslash-normalized and stripped of
leading exclamation marks; an anchored pattern (leading slash) is matched,
with leading slashes and then trailing slash or star characters stripped,
against the whole path; an unanchored pattern is matched, with trailing slash
or star characters stripped, against every accumulated leading path. -/
def excludeMatchesDir (rel : String) (pat0 : String) : Bool :=
  let pat := lstripChars ['!'] (slashifyChars pat0.data)
  if startsWithChars pat ['/'] then
    fnmatchB rel (String.mk (rstripChars ['/', '*'] (lstripChars ['/'] pat)))
  else
    (segmentLeadPaths rel.data).any
      (fun lead => fnmatchB (String.mk lead) (String.mk (rstripChars ['/', '*'] pat)))

/-- The rescue check of _should_include_directory, run when an exclude rule
has matched: an include pattern (the raw list, the double-negation entries
included) saves the directory when it matches the directory path (the pattern
stripped of trailing slash or star characters) or when the path extended with
slash-star matches the pattern. -/
def includeMatchesDir (includePats : List String) (rel : String) : Bool :=
  includePats.any (fun p0 =>
    let p := slashify p0
    fnmatchB rel (String.mk (rstripChars ['/', '*'] p.data)) || fnmatchB (rel ++ "/*") p)

/-- The trailing include check of _should_include_directory (source lines
149-161): it returns true on a match and the function returns true right
after anyway, so its outcome cannot change the result; it is embedded for
faithfulness. -/
def dirTrailingIncludeCheck (includePats : List String) (rel : String) : Bool :=
  includePats.any (fun p0 =>
    let p := slashify p0
    if startsWithChars p.data ['/'] then
      fnmatchB rel (String.mk (rstripChars ['/', '*'] (lstripChars ['/'] p.data)))
    else
      (segmentSubPaths rel.data).any
        (fun sub => fnmatchB (String.mk sub) (String.mk (rstripChars ['/', '*'] p.data))))

/-- FileManager._should_include_directory over the path already made relative
to the root.  When some exclude pattern matches, the first matching pattern
returns the rescue-check outcome (the same for every pattern, so any
semantics is equivalent); otherwise both remaining paths of the source return
true. -/
def should_include_directory_rel (includePats excludePats : List String) (rel0 : String) : Bool :=
  let rel := slashify rel0
  if excludePats.any (fun p => excludeMatchesDir rel p) then
    includeMatchesDir includePats rel
  else
    if dirTrailingIncludeCheck includePats rel then true else true

/-- FileManager._should_include_directory on an absolute path and root. -/
def should_include_directory (includePats excludePats : List String) (root p : String) : Bool :=
  should_include_directory_rel includePats excludePats (relpathUnder root p)

example : should_include_file_rel ["!!temp/keep/*"] ["temp/*"] "temp/keep/file.txt" = true := by decide
example : should_include_file_rel ["!!temp/keep/*"] ["temp/*"] "temp/other/file.txt" = false := by decide
example : should_include_file_rel ["*.py"] [] "docs/x.py" = true := by decide
example : should_include_directory_rel ["*.py"] [] "docs" = true := by decide
example : fnmatchB "src/foo.py" "/src/*.py" = false := by decide
example : fnmatchB "a.txt" "*.txt" = true := by decide

/-! ## The FileManager state and its event handlers -/

/-- The metadata record stored for one tracked file (the dict built by
FileManager._add_file); timestamps are abstracted as naturals. -/
structure FileInfo where
  size : Nat
  created_time : Nat
  modified_time : Nat
  relative_path : String
deriving DecidableEq

/-- The stat result the environment supplies for a file (os.stat in
_add_file); timestamps are abstracted as naturals. -/
structure StatInfo where
  st_size : Nat
  st_ctime : Nat
  st_mtime : Nat
deriving DecidableEq

/-- The mutable state of a FileManager instance: configuration plus the
in-memory index.  The files dict is an association list in insertion order
with unique keys; the directories set is a list without duplicates. -/
structure FMState where
  root_dir : String
  include_patterns : List String
  exclude_patterns : List String
  recursive : Bool
  files : List (String × FileInfo)
  directories : List String
deriving DecidableEq

/-- One notification delivered to callbacks: event type, source path and
optional destination path, exactly the argument triple of
_notify_file_change. -/
abbrev Notif := String × String × Option String

/-- Keys of an association-list dictionary, in insertion order. -/
def keysOf {α : Type} (d : List (String × α)) : List String := d.map Prod.fst

/-- Python dict assignment: update the value in place when the key exists,
append a fresh entry otherwise. -/
def dictInsert {α : Type} (k : String) (v : α) : List (String × α) → List (String × α)
  | [] => [(k, v)]
  | (k2, v2) :: rest => if k2 == k then (k, v) :: rest else (k2, v2) :: dictInsert k v rest

/-- Python dict deletion for a dict with unique keys: drop the entry. -/
def dictErase {α : Type} (k : String) (d : List (String × α)) : List (String × α) :=
  d.filter (fun p => p.1 != k)

/-- Python set insertion on a duplicate-free list. -/
def setAdd (x : String) (l : List String) : List String :=
  if l.contains x then l else l ++ [x]

/-- Python os.path.dirname: everything up to the last slash, trailing slashes
stripped unless the head consists of slashes only. -/
def dirnameChars (cs : List Char) : List Char :=
  if cs.contains '/' then
    let head := (cs.reverse.dropWhile (fun c => c != '/')).reverse
    if head.all (fun c => c == '/') then head
    else (head.reverse.dropWhile (fun c => c == '/')).reverse
  else []

/-- String-level wrapper for dirnameChars. -/
def dirname (p : String) : String := String.mk (dirnameChars p.data)

/-- The record FileManager._add_file builds from a stat result. -/
def mkRecord (root path : String) (stat : StatInfo) : FileInfo :=
  { size := stat.st_size, created_time := stat.st_ctime, modified_time := stat.st_mtime,
    relative_path := relpathUnder root path }

/-- FileManager._add_file on its successful path (the file exists and is a
regular file; stat is the environment's answer).  Persistence is the
identity on the in-memory state and is not modelled. -/
def add_file (s : FMState) (path : String) (stat : StatInfo) : FMState :=
  { s with files := dictInsert path (mkRecord s.root_dir path stat) s.files }

/-- FileEventHandler.on_deleted: a tracked directory cascades (every tracked
file with the directory as string prefix is removed with a deleted
notification, every other tracked directory with that prefix is removed with
a directory_deleted notification, finally the directory itself); a tracked
file is removed with one deleted notification; anything else is ignored.
The source deletes the precomputed entries one by one from the dict and the
set; on unique keys this is the filter written here. -/
def on_deleted (s : FMState) (src_path : String) : FMState × List Notif :=
  if s.directories.contains src_path then
    let files_to_remove := (keysOf s.files).filter (fun f => strStartsWith f src_path)
    let subdirs_to_remove := s.directories.filter (fun d => strStartsWith d src_path)
    ({ s with files := s.files.filter (fun p => !(strStartsWith p.1 src_path)),
              directories := s.directories.filter (fun d => !(strStartsWith d src_path)) },
     (files_to_remove.map (fun f => (("deleted", f, none) : Notif)))
       ++ ((subdirs_to_remove.filter (fun d => d != src_path)).map
             (fun d => (("directory_deleted", d, none) : Notif)))
       ++ [("directory_deleted", src_path, none)])
  else if (keysOf s.files).contains src_path then
    ({ s with files := s.files.filter (fun p => p.1 != src_path) },
     [("deleted", src_path, none)])
  else (s, [])

/-- FileEventHandler.on_moved: a tracked directory src is removed from the
set; the destination is added (directory_moved) only when the recursion
condition and the directory decision accept it, else only directory_deleted
is emitted.  A tracked file src loses its record; the destination record is
created (moved) only when the file decision accepts it, else deleted is
emitted.  destStat is the stat result for the destination file. -/
def on_moved (s : FMState) (src_path dest_path : String) (destStat : StatInfo) :
    FMState × List Notif :=
  if s.directories.contains src_path then
    let s1 := { s with directories := s.directories.filter (fun d => d != src_path) }
    if s.recursive || (dirname dest_path == s.root_dir) then
      if should_include_directory s.include_patterns s.exclude_patterns s.root_dir dest_path then
        ({ s1 with directories := setAdd dest_path s1.directories },
         [("directory_moved", src_path, some dest_path)])
      else (s1, [("directory_deleted", src_path, none)])
    else (s1, [("directory_deleted", src_path, none)])
  else if (keysOf s.files).contains src_path then
    let s1 := { s with files := s.files.filter (fun p => p.1 != src_path) }
    if should_include_file s.include_patterns s.exclude_patterns s.root_dir dest_path then
      (add_file s1 dest_path destStat, [("moved", src_path, some dest_path)])
    else (s1, [("deleted", src_path, none)])
  else (s, [])

/-- FileManager._scan_directory with the filesystem walk supplied as input:
the walked subdirectory paths, and the walked file paths with their stat
results, in walk order.  Existing records are cleared, the root is added
unconditionally (with one directory_created notification), every walked
directory passing the recursion condition and the directory decision is added
(with a directory_created notification), and every walked file passing the
walk condition and the file decision is recorded (the source adds scanned
files without a notification).  In non-recursive mode the walk skips every
directory other than the root itself, so exactly the entries whose parent is
the root get processed. -/
def scan_directory (s : FMState) (walkDirs : List String)
    (walkFiles : List (String × StatInfo)) : FMState × List Notif :=
  let dirsIncluded := walkDirs.filter (fun d =>
    (s.recursive || (dirname d == s.root_dir)) &&
      should_include_directory s.include_patterns s.exclude_patterns s.root_dir d)
  let filesIncluded := walkFiles.filter (fun f =>
    (s.recursive || (dirname f.1 == s.root_dir)) &&
      should_include_file s.include_patterns s.exclude_patterns s.root_dir f.1)
  ({ s with directories := [s.root_dir] ++ dirsIncluded,
            files := filesIncluded.map (fun f => (f.1, mkRecord s.root_dir f.1 f.2)) },
   (("directory_created", s.root_dir, none) : Notif)
     :: dirsIncluded.map (fun d => (("directory_created", d, none) : Notif)))

/-- The persisted snapshot (the JSON object _save_data writes). -/
structure Snapshot where
  root_dir : String
  files : List (String × FileInfo)
  directories : List String
  include_patterns : List String
  exclude_patterns : List String
  recursive : Bool
deriving DecidableEq

/-- FileManager._save_data: the full snapshot of the current state. -/
def save_data (s : FMState) : Snapshot :=
  { root_dir := s.root_dir, files := s.files, directories := s.directories,
    include_patterns := s.include_patterns, exclude_patterns := s.exclude_patterns,
    recursive := s.recursive }

/-- FileManager._load_data: none models a missing storage file.  The snapshot
is honored only when its recorded root equals the configured root; patterns
are taken from the snapshot only when the current ones are empty or the
default star list, and the recursive flag is restored. -/
def load_data (s : FMState) (snap : Option Snapshot) : FMState :=
  match snap with
  | none => s
  | some d =>
    if d.root_dir == s.root_dir then
      { s with
        files := d.files,
        directories := d.directories,
        include_patterns :=
          if s.include_patterns.isEmpty || s.include_patterns == ["*"] then d.include_patterns
          else s.include_patterns,
        exclude_patterns :=
          if s.exclude_patterns.isEmpty then d.exclude_patterns else s.exclude_patterns,
        recursive := d.recursive }
    else s

/-- A registered callback, identified by registration id; failsOn tells for
which notification the call raises an exception. -/
structure Callback where
  id : Nat
  failsOn : Notif → Bool

/-- FileManager._notify_file_change: every registered callback is invoked in
registration order with the notification triple; an exception inside a
callback is caught (and logged), so the loop continues with the remaining
callbacks regardless.  The result is the invocation log: callback id, the
delivered triple, and whether that call raised. -/
def notify_file_change : List Callback → Notif → List (Nat × Notif × Bool)
  | [], _ => []
  | cb :: rest, n => (cb.id, n, cb.failsOn n) :: notify_file_change rest n

/-- Dispatch of one deletion event together with callback delivery at each
notification point: since _notify_file_change catches every callback
exception, delivery influences neither the handler loop nor the index
mutation. -/
def on_deleted_with_callbacks (cbs : List Callback) (s : FMState) (p : String) :
    FMState × List (Nat × Notif × Bool) :=
  ((on_deleted s p).1, (on_deleted s p).2.flatMap (fun n => notify_file_change cbs n))

theorem startsWithChars_refl : ∀ cs : List Char, startsWithChars cs cs = true := by
  intro cs
  induction cs with
  | nil => rfl
  | cons c s ih => simp [startsWithChars, ih]

theorem strStartsWith_refl (s : String) : strStartsWith s s = true :=
  startsWithChars_refl s.data

/-! ## Claim theorems for the FileManager -/

/-- Claim C1: processing a Deleted event for a tracked directory d removes
from the index every tracked file whose path is prefixed by d, emitting one
deleted notification each, removes every other tracked directory whose path
is prefixed by d, emitting one directory_deleted each, and finally removes d
itself with one more directory_deleted; the notification count equals
removed-files + removed-subdirectories + 1, and afterwards no index entry
under d remains. -/
theorem deleted_tracked_directory_cascades (s : FMState) (d : String)
    (hd : s.directories.contains d = true) :
    ((on_deleted s d).2 =
        ((keysOf s.files).filter (fun f => strStartsWith f d)).map
            (fun f => (("deleted", f, none) : Notif))
          ++ ((s.directories.filter (fun x => strStartsWith x d)).filter (fun x => x != d)).map
            (fun x => (("directory_deleted", x, none) : Notif))
          ++ [("directory_deleted", d, none)])
    ∧ (on_deleted s d).2.length
        = ((keysOf s.files).filter (fun f => strStartsWith f d)).length
          + ((s.directories.filter (fun x => strStartsWith x d)).filter (fun x => x != d)).length
          + 1
    ∧ (on_deleted s d).1.files = s.files.filter (fun p => !(strStartsWith p.1 d))
    ∧ (on_deleted s d).1.directories = s.directories.filter (fun x => !(strStartsWith x d))
    ∧ (∀ p ∈ (on_deleted s d).1.files, strStartsWith p.1 d = false)
    ∧ (∀ x ∈ (on_deleted s d).1.directories, strStartsWith x d = false)
    ∧ d ∉ (on_deleted s d).1.directories := by
  have hnotif : (on_deleted s d).2 =
      ((keysOf s.files).filter (fun f => strStartsWith f d)).map
          (fun f => (("deleted", f, none) : Notif))
        ++ ((s.directories.filter (fun x => strStartsWith x d)).filter (fun x => x != d)).map
          (fun x => (("directory_deleted", x, none) : Notif))
        ++ [("directory_deleted", d, none)] := by
    simp only [on_deleted, hd, if_true]
  have hfiles : (on_deleted s d).1.files = s.files.filter (fun p => !(strStartsWith p.1 d)) := by
    simp only [on_deleted, hd, if_true]
  have hdirs : (on_deleted s d).1.directories
      = s.directories.filter (fun x => !(strStartsWith x d)) := by
    simp only [on_deleted, hd, if_true]
  refine ⟨hnotif, ?_, hfiles, hdirs, ?_, ?_, ?_⟩
  · rw [hnotif]
    simp [List.length_append]
    omega
  · intro p hp
    rw [hfiles] at hp
    have := List.of_mem_filter hp
    simpa using this
  · intro x hx
    rw [hdirs] at hx
    have := List.of_mem_filter hx
    simpa using this
  · intro hmem
    rw [hdirs] at hmem
    have := List.of_mem_filter hmem
    simp [strStartsWith_refl] at this

/-- Claim C4: a Moved event whose source is a tracked file removes the
source record; when the pattern engine accepts the destination, the
destination record is created and exactly one moved notification is emitted;
when it rejects the destination, no destination record is created and exactly
one deleted notification is emitted, never a moved one. -/
theorem moved_tracked_file (s : FMState) (src dst : String) (stat : StatInfo)
    (hnd : s.directories.contains src = false)
    (hf : (keysOf s.files).contains src = true) :
    ((should_include_file s.include_patterns s.exclude_patterns s.root_dir dst = true →
        (on_moved s src dst stat).1.files
            = dictInsert dst (mkRecord s.root_dir dst stat)
                (s.files.filter (fun p => p.1 != src))
          ∧ (on_moved s src dst stat).2 = [("moved", src, some dst)])
      ∧ (should_include_file s.include_patterns s.exclude_patterns s.root_dir dst = false →
        (on_moved s src dst stat).1.files = s.files.filter (fun p => p.1 != src)
          ∧ (on_moved s src dst stat).2 = [("deleted", src, none)]
          ∧ ∀ n ∈ (on_moved s src dst stat).2, n.1 ≠ "moved")) := by
  constructor
  · intro hacc
    constructor
    · simp only [on_moved, hnd, hf, hacc, Bool.false_eq_true, if_false, if_true, add_file]
    · simp only [on_moved, hnd, hf, hacc, Bool.false_eq_true, if_false, if_true]
  · intro hrej
    refine ⟨?_, ?_, ?_⟩
    · simp only [on_moved, hnd, hf, hrej, Bool.false_eq_true, if_false, if_true]
    · simp only [on_moved, hnd, hf, hrej, Bool.false_eq_true, if_false, if_true]
    · intro n hn
      simp only [on_moved, hnd, hf, hrej, Bool.false_eq_true, if_false, if_true,
        List.mem_singleton] at hn
      subst hn
      simp

/-- Claim C9: a Moved event whose source is a tracked directory modifies only
the tracked-directory set (the source removed, the destination possibly
added); every file record, those under the source included, is left
completely unchanged. -/
theorem moved_tracked_directory_frame (s : FMState) (src dst : String) (stat : StatInfo)
    (hd : s.directories.contains src = true) :
    (on_moved s src dst stat).1.files = s.files
    ∧ (on_moved s src dst stat).1.root_dir = s.root_dir
    ∧ ((on_moved s src dst stat).1.directories = s.directories.filter (fun x => x != src)
        ∨ (on_moved s src dst stat).1.directories
            = setAdd dst (s.directories.filter (fun x => x != src))) := by
  simp only [on_moved, hd, if_true]
  by_cases hrec : (s.recursive || (dirname dst == s.root_dir)) = true
  · simp only [hrec, if_true]
    by_cases hinc :
        should_include_directory s.include_patterns s.exclude_patterns s.root_dir dst = true
    · simp [hinc]
    · simp [hinc]
  · simp [hrec]

/-- Claim C5: saving a snapshot and loading it back with the same configured
root restores the file map, directory set, pattern lists and recursive flag
exactly; a snapshot whose recorded root differs from the configured root
changes nothing. -/
theorem snapshot_round_trip (s : FMState) (snap : Snapshot)
    (hroot : snap.root_dir ≠ s.root_dir) :
    load_data s (some (save_data s)) = s ∧ load_data s (some snap) = s := by
  constructor
  · simp only [load_data, save_data, beq_self_eq_true, if_true, ite_self]
  · simp only [load_data]
    rw [if_neg]
    simp [hroot]

/-- Claim C6: every mutation notification is delivered to each registered
callback exactly once, in registration order, with the (event type, source
path, optional destination) triple; a raising callback is caught, the
remaining callbacks are still invoked, and the triggering mutation keeps its
index change (delivery does not influence the resulting state). -/
theorem callback_delivery_isolated (cbs : List Callback) (n : Notif) (s : FMState) (p : String) :
    ((notify_file_change cbs n).map (fun e => e.1) = cbs.map Callback.id
      ∧ (∀ e ∈ notify_file_change cbs n, e.2.1 = n)
      ∧ (on_deleted_with_callbacks cbs s p).1 = (on_deleted s p).1) := by
  refine ⟨?_, ?_, rfl⟩
  · induction cbs with
    | nil => rfl
    | cons cb rest ih => simp [notify_file_change, ih]
  · induction cbs with
    | nil => intro e he; simp [notify_file_change] at he
    | cons cb rest ih =>
      intro e he
      simp only [notify_file_change, List.mem_cons] at he
      cases he with
      | inl h => rw [h]
      | inr h => exact ih e h

/-- Claim C2: for a file path that some exclude pattern matches, the decision
of _should_include_file equals the outcome of the reinclude check alone: a
matching reinclude pattern (double-negation marker stripped) flips the
result to included, and with no matching reinclude pattern the path stays
excluded regardless of the ordinary include list. -/
theorem excluded_file_decided_by_reincludes (includePats excludePats : List String)
    (rel : String)
    (hexc : excludePats.any (fun p => excludeMatchesFile (slashify rel) p) = true) :
    should_include_file_rel includePats excludePats rel
      = (reincludePatterns includePats).any (fun p => fileMatchesPattern (slashify rel) p) := by
  simp only [should_include_file_rel, hexc, if_true]

/-- Claim C3: the directory decision returns included whenever no exclude
pattern matches the directory, the include list notwithstanding; it returns
excluded only when some exclude pattern matches and no include pattern
matches the directory path or its slash-star form.  In particular, with
include star-dot-py only, directory docs is tracked by the scan and the file
docs/x.py is recorded. -/
theorem directory_default_included (includePats excludePats : List String) (rel : String) :
    ((excludePats.any (fun p => excludeMatchesDir (slashify rel) p) = false →
        should_include_directory_rel includePats excludePats rel = true)
      ∧ (should_include_directory_rel includePats excludePats rel = false →
          excludePats.any (fun p => excludeMatchesDir (slashify rel) p) = true
            ∧ includeMatchesDir includePats (slashify rel) = false)
      ∧ "/r/docs" ∈ (scan_directory ⟨"/r", ["*.py"], [], true, [], ["/r"]⟩
            ["/r/docs"] [("/r/docs/x.py", ⟨7, 1, 2⟩)]).1.directories
      ∧ "/r/docs/x.py" ∈ keysOf (scan_directory ⟨"/r", ["*.py"], [], true, [], ["/r"]⟩
            ["/r/docs"] [("/r/docs/x.py", ⟨7, 1, 2⟩)]).1.files) := by
  refine ⟨?_, ?_, by decide, by decide⟩
  · intro hexc
    simp only [should_include_directory_rel, hexc, Bool.false_eq_true, if_false, ite_self]
  · intro hres
    simp only [should_include_directory_rel] at hres
    by_cases hexc : excludePats.any (fun p => excludeMatchesDir (slashify rel) p) = true
    · rw [if_pos hexc] at hres
      exact ⟨hexc, hres⟩
    · rw [if_neg hexc, ite_self] at hres
      cases hres

/-! ## The TagManager -/

/-- A tag record: display name, description and optional parent tag id. -/
structure Tag where
  name : String
  description : String
  parent : Option String
deriving DecidableEq

/-- The TagManager state: the tag dict (tag id to record, insertion order,
unique keys) and the file-tags dict mapping a normalized file path to its
set of tag ids (a Python set, modelled as a duplicate-free list). -/
structure TagStore where
  tags : List (String × Tag)
  file_tags : List (String × List String)
deriving DecidableEq

/-- Python os.path.normpath for POSIX paths: empty becomes a dot, double
(but not triple) leading slashes are preserved, empty and dot components are
dropped, and a dot-dot component pops the previous component unless the path
is relative and nothing is left, or the previous component is itself a
dot-dot. -/
def normpath (p : String) : String :=
  if p == "" then "."
  else
    let cs := p.data
    let initialSlashes : Nat :=
      if startsWithChars cs ['/'] then
        (if startsWithChars cs ['/', '/'] && !(startsWithChars cs ['/', '/', '/']) then 2 else 1)
      else 0
    let comps := splitSlash cs
    let newComps := comps.foldl (fun acc comp =>
      if comp.isEmpty || comp == ['.'] then acc
      else if !(comp == ['.', '.']) || (initialSlashes == 0 && acc.isEmpty)
          || (!acc.isEmpty && acc.getLast? == some ['.', '.']) then acc ++ [comp]
      else if !acc.isEmpty then acc.dropLast
      else acc) []
    let joined := List.replicate initialSlashes '/' ++ joinSlash newComps
    if joined.isEmpty then "." else String.mk joined

/-- Direct children of a tag id: ids whose record names it as parent (the
first loop of TagManager.remove_tag). -/
def childrenOf (tags : List (String × Tag)) (t : String) : List String :=
  (tags.filter (fun p => p.2.parent == some t)).map Prod.fst

/-- Detach one tag id from every file association, as the second loop of
TagManager.remove_tag: an entry containing the id gets it removed and is
dropped when its remaining set is empty; entries not containing the id are
untouched (the source only deletes an entry it modified). -/
def detachTag (ft : List (String × List String)) (t : String) : List (String × List String) :=
  ft.filterMap (fun fp =>
    if fp.2.contains t then
      (if (fp.2.filter (fun i => i != t)).isEmpty then none
       else some (fp.1, fp.2.filter (fun i => i != t)))
    else some fp)

/-- TagManager.remove_tag: a missing id raises a ValueError naming the tag;
otherwise the direct children (computed up front, as in the source) are
removed recursively in order, the id is detached from every file
association, and the tag entry itself is deleted.  The fuel argument only
makes the recursion structural: each recursive call descends from a tag to
one of its children, so any fuel exceeding the height of the tag forest
reproduces the recursion of the source (the theorems quantify over such
fuel; the source itself recurses unboundedly on cyclic parent references). -/
def remove_tag : Nat → TagStore → String → Except String TagStore
  | 0, _, _ => Except.error "insufficient fuel"
  | fuel + 1, s, tag_id =>
    if (keysOf s.tags).contains tag_id then
      match (childrenOf s.tags tag_id).foldl
          (fun acc c =>
            match acc with
            | Except.error e => Except.error e
            | Except.ok s2 => remove_tag fuel s2 c)
          (Except.ok s) with
      | Except.error e => Except.error e
      | Except.ok s2 =>
        Except.ok { tags := s2.tags.filter (fun p => p.1 != tag_id),
                    file_tags := detachTag s2.file_tags tag_id }
    else Except.error ("标签 " ++ tag_id ++ " 不存在")

/-- The child-removal loop of remove_tag, as a named function (definitionally
the fold inside remove_tag): each child is removed in order, errors
propagate. -/
def remove_tag_list (fuel : Nat) (s : TagStore) (cs : List String) : Except String TagStore :=
  cs.foldl (fun acc c =>
    match acc with
    | Except.error e => Except.error e
    | Except.ok s2 => remove_tag fuel s2 c) (Except.ok s)

/-- TagManager.add_tag_to_file: an unknown tag id raises a ValueError; else
the path is normalized, a fresh empty entry is created when absent, and the
id is added to the entry's set. -/
def add_tag_to_file (s : TagStore) (file_path tag_id : String) : Except String TagStore :=
  if (keysOf s.tags).contains tag_id then
    if (keysOf s.file_tags).contains (normpath file_path) then
      Except.ok { s with file_tags := s.file_tags.map (fun e =>
        if e.1 == normpath file_path then
          (e.1, if e.2.contains tag_id then e.2 else e.2 ++ [tag_id])
        else e) }
    else
      Except.ok { s with file_tags := s.file_tags ++ [(normpath file_path, [tag_id])] }
  else Except.error ("标签 " ++ tag_id ++ " 不存在")

/-- TagManager.remove_tag_from_file: the path is normalized; when the entry
exists and contains the id, the id is removed and the entry is dropped if its
set became empty; otherwise nothing changes. -/
def remove_tag_from_file (s : TagStore) (file_path tag_id : String) : TagStore :=
  if s.file_tags.any (fun e => e.1 == normpath file_path && e.2.contains tag_id) then
    { s with file_tags := s.file_tags.filterMap (fun e =>
        if e.1 == normpath file_path then
          (if (e.2.filter (fun i => i != tag_id)).isEmpty then none
           else some (e.1, e.2.filter (fun i => i != tag_id)))
        else some e) }
  else s

/-- Lexicographic code-point comparison of character lists (at most): the
order Python uses for strings. -/
def lexLe : List Char → List Char → Bool
  | [], _ => true
  | _ :: _, [] => false
  | a :: as, b :: bs => if a == b then lexLe as bs else decide (a < b)

/-- Python sorted on strings: ascending stable sort by the lexicographic
code-point order. -/
def sortStrings (l : List String) : List String :=
  List.insertionSort (fun a b => lexLe a.data b.data = true) l

/-- TagManager.find_files_by_tags: an empty query returns the empty list; a
query naming an unknown tag raises a ValueError for the first unknown id;
otherwise every file-tags entry whose set contains all (match_all) or any
(otherwise) of the ids contributes its normalized path, and the result is
sorted. -/
def find_files_by_tags (s : TagStore) (tag_ids : List String) (match_all : Bool) :
    Except String (List String) :=
  if tag_ids.isEmpty then Except.ok []
  else
    match tag_ids.find? (fun i => !((keysOf s.tags).contains i)) with
    | some i => Except.error ("标签 " ++ i ++ " 不存在")
    | none =>
      Except.ok (sortStrings ((s.file_tags.filter (fun e =>
        if match_all then tag_ids.all (fun i => e.2.contains i)
        else tag_ids.any (fun i => e.2.contains i))).map (fun e => normpath e.1)))

example : normpath "a//b" = "a/b" := by decide
example : normpath "" = "." := by decide
example : normpath "a/./b/../c" = "a/c" := by decide
example : remove_tag 2 ⟨[("t", ⟨"t", "", none⟩)], [("f", ["t", "ghost"])]⟩ "t"
    = Except.ok ⟨[], [("f", ["ghost"])]⟩ := rfl
example : remove_tag 3
    ⟨[("p", ⟨"p", "", none⟩), ("c", ⟨"c", "", some "p"⟩)], [("f", ["c"]), ("g", ["p", "z"])]⟩ "p"
    = Except.ok ⟨[], [("g", ["z"])]⟩ := rfl
example : sortStrings ["b", "a", "a"] = ["a", "a", "b"] := by decide
example :
    find_files_by_tags ⟨[("t", ⟨"t", "", none⟩)], [("a//b", ["t"]), ("a/b", ["t"])]⟩
      ["t"] false = Except.ok ["a/b", "a/b"] := rfl

/-! ## Descent in the tag forest -/

/-- Descent along parent references: Reach ts x y holds when following parent
references from x (each step justified by an entry of the tag list) arrives
at y; in particular x reaches itself.  Reach ts x t for x different from t
says x is a transitive descendant of t. -/
inductive Reach (ts : List (String × Tag)) : String → String → Prop
  | refl (x : String) : Reach ts x x
  | step {x p y : String} {tg : Tag} : (x, tg) ∈ ts → tg.parent = some p →
      Reach ts p y → Reach ts x y

theorem Reach.trans_r {ts : List (String × Tag)} {x y z : String}
    (h1 : Reach ts x y) (h2 : Reach ts y z) : Reach ts x z := by
  induction h1 with
  | refl => exact h2
  | step hmem hpar _ ih => exact Reach.step hmem hpar (ih h2)

/-- A height certificate for the parent references: every child is strictly
lower than its (present) parent.  Such a certificate exists exactly for the
acyclic forests the claim is about, and it bounds the recursion depth of
remove_tag. -/
def htOk (ht : String → Nat) (ts : List (String × Tag)) : Bool :=
  ts.all (fun p =>
    match p.2.parent with
    | none => true
    | some q => decide (ht p.1 < ht q))

theorem htOk_lt {ht : String → Nat} {ts : List (String × Tag)} (h : htOk ht ts = true)
    {x : String} {tg : Tag} {q : String} (hmem : (x, tg) ∈ ts) (hq : tg.parent = some q) :
    ht x < ht q := by
  have h2 := List.all_eq_true.mp h _ hmem
  rw [hq] at h2
  simpa using h2

theorem reach_ht {ht : String → Nat} {ts : List (String × Tag)} (h : htOk ht ts = true)
    {x y : String} (hr : Reach ts x y) : x = y ∨ ht x < ht y := by
  induction hr with
  | refl => exact Or.inl rfl
  | step hmem hpar _ ih =>
    right
    have h1 := htOk_lt h hmem hpar
    cases ih with
    | inl e => rw [← e]; exact h1
    | inr hlt => omega

theorem htOk_sublist {ht : String → Nat} {ts2 ts : List (String × Tag)}
    (hs : ts2.Sublist ts) (h : htOk ht ts = true) : htOk ht ts2 = true := by
  rw [htOk, List.all_eq_true] at h ⊢
  intro p hp
  exact h p (hs.subset hp)

theorem key_unique {ts : List (String × Tag)} (hnd : (keysOf ts).Nodup)
    {x : String} {a b : Tag} (ha : (x, a) ∈ ts) (hb : (x, b) ∈ ts) : a = b := by
  induction ts with
  | nil => cases ha
  | cons e rest ih =>
    rw [keysOf, List.map_cons, List.nodup_cons] at hnd
    rcases List.mem_cons.mp ha with ha1 | ha1 <;> rcases List.mem_cons.mp hb with hb1 | hb1
    · rw [← ha1] at hb1
      exact congrArg Prod.snd hb1.symm
    · exfalso
      apply hnd.1
      have hx : x ∈ List.map Prod.fst rest := List.mem_map_of_mem Prod.fst hb1
      rw [← ha1]
      exact hx
    · exfalso
      apply hnd.1
      have hx : x ∈ List.map Prod.fst rest := List.mem_map_of_mem Prod.fst ha1
      rw [← hb1]
      exact hx
    · exact ih hnd.2 ha1 hb1

theorem keys_contains_iff {ts : List (String × Tag)} {x : String} :
    (keysOf ts).contains x = true ↔ ∃ tg, (x, tg) ∈ ts := by
  rw [keysOf, List.contains_eq_any_beq, List.any_eq_true]
  constructor
  · rintro ⟨k, hk, he⟩
    obtain ⟨e, he2, hk2⟩ := List.mem_map.mp hk
    refine ⟨e.2, ?_⟩
    have : x = k := eq_of_beq he
    rw [this, ← hk2]
    exact he2
  · rintro ⟨tg, hmem⟩
    exact ⟨x, List.mem_map_of_mem Prod.fst hmem, by simp⟩

theorem childrenOf_mem {ts : List (String × Tag)} {t c : String} :
    c ∈ childrenOf ts t ↔ ∃ tg, (c, tg) ∈ ts ∧ tg.parent = some t := by
  constructor
  · intro h
    rw [childrenOf] at h
    obtain ⟨p, hp, hpc⟩ := List.mem_map.mp h
    obtain ⟨hmem, hcond⟩ := List.mem_filter.mp hp
    refine ⟨p.2, ?_, eq_of_beq hcond⟩
    rw [← hpc]
    exact hmem
  · rintro ⟨tg, hmem, hpar⟩
    rw [childrenOf]
    apply List.mem_map.mpr
    refine ⟨(c, tg), List.mem_filter.mpr ⟨hmem, ?_⟩, rfl⟩
    simp [hpar]

/-- Descent to a target decomposes through the target's direct children. -/
theorem reach_to_target {ts : List (String × Tag)} {x t : String} :
    Reach ts x t ↔ (x = t ∨ ∃ c ∈ childrenOf ts t, Reach ts x c) := by
  constructor
  · intro h
    induction h with
    | refl => exact Or.inl rfl
    | @step x2 p y tg hmem hpar hsub ih =>
      cases ih with
      | inl e =>
        right
        refine ⟨x2, childrenOf_mem.mpr ⟨tg, hmem, by rw [hpar, e]⟩, Reach.refl x2⟩
      | inr hc =>
        obtain ⟨c, hcm, hcr⟩ := hc
        exact Or.inr ⟨c, hcm, Reach.step hmem hpar hcr⟩
  · intro h
    cases h with
    | inl e => rw [e]; exact Reach.refl t
    | inr hc =>
      obtain ⟨c, hcm, hcr⟩ := hc
      obtain ⟨tg, hmem, hpar⟩ := childrenOf_mem.mp hcm
      exact Reach.trans_r hcr (Reach.step hmem hpar (Reach.refl t))

theorem reach_mono {ts ts2 : List (String × Tag)}
    (hsub : ∀ e : String × Tag, e ∈ ts2 → e ∈ ts) :
    ∀ x y, Reach ts2 x y → Reach ts x y := by
  intro x y h
  induction h with
  | refl => exact Reach.refl _
  | step hmem hpar _ ih => exact Reach.step (hsub _ hmem) hpar ih

/-- Removing the descendants of c changes no descent fact about survivors:
if x does not reach c in ts, then descents from x in ts and in the list with
the c-descendants removed agree. -/
theorem reach_transfer {ts ts2 : List (String × Tag)} {c : String}
    (H : ∀ e : String × Tag, e ∈ ts2 ↔ (e ∈ ts ∧ ¬ Reach ts e.1 c))
    {x y : String} (hx : ¬ Reach ts x c) : (Reach ts x y ↔ Reach ts2 x y) := by
  constructor
  · have main : ∀ a b, Reach ts a b → ¬ Reach ts a c → Reach ts2 a b := by
      intro a b h
      induction h with
      | refl => intro _; exact Reach.refl _
      | step hmem hpar _ ih =>
        intro ha
        have hp : ¬ Reach ts _ c := fun hr => ha (Reach.step hmem hpar hr)
        exact Reach.step ((H _).mpr ⟨hmem, ha⟩) hpar (ih hp)
    intro h
    exact main x y h hx
  · exact reach_mono (fun e he => ((H e).mp he).1) x y

theorem list_contains_iff {α : Type} [BEq α] [LawfulBEq α] {l : List α} {a : α} :
    l.contains a = true ↔ a ∈ l := List.elem_iff

/-- What the child-removal pass is proved to do to the tag list: exactly the
entries descending to some removed id disappear. -/
def TagsSpec (ts : List (String × Tag)) (removed : String → Prop)
    (ts2 : List (String × Tag)) : Prop :=
  ∀ x tg, ((x, tg) ∈ ts2 ↔ ((x, tg) ∈ ts ∧ ¬ removed x))

/-- What the removal pass is proved to do to the file associations: every
surviving entry shrinks an original entry and references no removed id. -/
def FtSpec (ft : List (String × List String)) (removed : String → Prop)
    (ft2 : List (String × List String)) : Prop :=
  ∀ f ids, (f, ids) ∈ ft2 → ∃ ids0, (f, ids0) ∈ ft ∧ ∀ i ∈ ids, (i ∈ ids0 ∧ ¬ removed i)

theorem detachTag_mem {ft : List (String × List String)} {t f : String} {ids : List String}
    (h : (f, ids) ∈ detachTag ft t) :
    ∃ ids0, (f, ids0) ∈ ft ∧ ∀ i ∈ ids, (i ∈ ids0 ∧ i ≠ t) := by
  rw [detachTag] at h
  obtain ⟨e, he, hfn⟩ := List.mem_filterMap.mp h
  by_cases hc : e.2.contains t = true
  · rw [if_pos hc] at hfn
    by_cases hemp : (e.2.filter (fun i => i != t)).isEmpty = true
    · rw [if_pos hemp] at hfn
      cases hfn
    · rw [if_neg hemp] at hfn
      have hinj := Option.some.inj hfn
      rw [Prod.ext_iff] at hinj
      obtain ⟨h1, h2⟩ := hinj
      dsimp only at h1 h2
      refine ⟨e.2, ?_, ?_⟩
      · rw [← h1]
        simpa using he
      · intro i hi
        rw [← h2] at hi
        have := List.mem_filter.mp hi
        exact ⟨this.1, by simpa using this.2⟩
  · rw [if_neg hc] at hfn
    have hinj := Option.some.inj hfn
    refine ⟨ids, by rw [← hinj]; simpa using he, ?_⟩
    intro i hi
    refine ⟨hi, ?_⟩
    intro hit
    apply hc
    apply list_contains_iff.mpr
    rw [← hit]
    have : e.2 = ids := congrArg Prod.snd hinj
    rw [this]
    exact hi

theorem remove_tag_succ (fuel : Nat) (s : TagStore) (t : String) :
    remove_tag (fuel + 1) s t
      = if (keysOf s.tags).contains t then
          match remove_tag_list fuel s (childrenOf s.tags t) with
          | Except.error e => Except.error e
          | Except.ok s2 =>
            Except.ok { tags := s2.tags.filter (fun p => p.1 != t),
                        file_tags := detachTag s2.file_tags t }
        else Except.error ("标签 " ++ t ++ " 不存在") := rfl

theorem remove_tag_list_nil (fuel : Nat) (s : TagStore) :
    remove_tag_list fuel s [] = Except.ok s := rfl

theorem remove_tag_list_err (fuel : Nat) (e : String) (cs : List String) :
    cs.foldl (fun acc c =>
      match acc with
      | Except.error e2 => Except.error e2
      | Except.ok s2 => remove_tag fuel s2 c) (Except.error e) = Except.error e := by
  induction cs with
  | nil => rfl
  | cons c cs ih => exact ih

theorem remove_tag_list_cons (fuel : Nat) (s : TagStore) (c : String) (cs : List String) :
    remove_tag_list fuel s (c :: cs)
      = match remove_tag fuel s c with
        | Except.error e => Except.error e
        | Except.ok s2 => remove_tag_list fuel s2 cs := by
  rw [remove_tag_list, List.foldl_cons]
  cases h : remove_tag fuel s c with
  | error e =>
    have : (match Except.ok s with
      | Except.error e2 => Except.error e2
      | Except.ok s2 => remove_tag fuel s2 c) = Except.error e := by
      simpa using h
    rw [this]
    exact remove_tag_list_err fuel e cs
  | ok s2 =>
    have : (match Except.ok s with
      | Except.error e2 => Except.error e2
      | Except.ok s2 => remove_tag fuel s2 c) = Except.ok s2 := by
      simpa using h
    rw [this]
    rfl

/-- The child-removal loop removes exactly the descendants of the listed
children: proved by induction on the child list, assuming the single-tag
property at the same fuel (the fuel induction below supplies it). -/
theorem remove_tag_list_main (ht : String → Nat) (fuel : Nat)
    (IH : ∀ (s : TagStore) (t : String), htOk ht s.tags = true → (keysOf s.tags).Nodup →
      (keysOf s.tags).contains t = true → ht t < fuel →
      ∃ s2, remove_tag fuel s t = Except.ok s2 ∧ s2.tags.Sublist s.tags
        ∧ TagsSpec s.tags (fun x => Reach s.tags x t) s2.tags
        ∧ FtSpec s.file_tags (fun x => Reach s.tags x t) s2.file_tags) :
    ∀ (cs : List String) (s : TagStore),
      htOk ht s.tags = true → (keysOf s.tags).Nodup → cs.Nodup →
      (∀ c ∈ cs, (keysOf s.tags).contains c = true) →
      (∀ c ∈ cs, ht c < fuel) →
      (∀ c ∈ cs, ∀ c2 ∈ cs, c ≠ c2 → ¬ Reach s.tags c c2) →
      ∃ s2, remove_tag_list fuel s cs = Except.ok s2
        ∧ s2.tags.Sublist s.tags
        ∧ TagsSpec s.tags (fun x => ∃ c ∈ cs, Reach s.tags x c) s2.tags
        ∧ FtSpec s.file_tags (fun x => ∃ c ∈ cs, Reach s.tags x c) s2.file_tags := by
  intro cs
  induction cs with
  | nil =>
    intro s hht hnd _ _ _ _
    refine ⟨s, remove_tag_list_nil fuel s, List.Sublist.refl _, ?_, ?_⟩
    · intro x tg
      simp
    · intro f ids hmem
      exact ⟨ids, hmem, fun i hi => ⟨hi, by simp⟩⟩
  | cons c cs ihcs =>
    intro s hht hnd hcsnd hkeys hhtlt hindep
    obtain ⟨s1, heq1, hsub1, hts1, hft1⟩ :=
      IH s c hht hnd (hkeys c (List.mem_cons_self c cs)) (hhtlt c (List.mem_cons_self c cs))
    have H1 : ∀ e : String × Tag, e ∈ s1.tags ↔ (e ∈ s.tags ∧ ¬ Reach s.tags e.1 c) := by
      intro e
      simpa using hts1 e.1 e.2
    have hht1 : htOk ht s1.tags = true := htOk_sublist hsub1 hht
    have hnd1 : (keysOf s1.tags).Nodup := (hsub1.map Prod.fst).nodup hnd
    have hkeys1 : ∀ c2 ∈ cs, (keysOf s1.tags).contains c2 = true := by
      intro c2 hc2
      obtain ⟨tg, htg⟩ := keys_contains_iff.mp (hkeys c2 (List.mem_cons_of_mem c hc2))
      apply keys_contains_iff.mpr
      refine ⟨tg, (hts1 c2 tg).mpr ⟨htg, ?_⟩⟩
      exact hindep c2 (List.mem_cons_of_mem c hc2) c (List.mem_cons_self c cs)
        (fun he => (List.nodup_cons.mp hcsnd).1 (he ▸ hc2))
    have hhtlt1 : ∀ c2 ∈ cs, ht c2 < fuel := fun c2 hc2 => hhtlt c2 (List.mem_cons_of_mem c hc2)
    have hindep1 : ∀ c2 ∈ cs, ∀ c3 ∈ cs, c2 ≠ c3 → ¬ Reach s1.tags c2 c3 := by
      intro c2 hc2 c3 hc3 hne hr
      exact hindep c2 (List.mem_cons_of_mem c hc2) c3 (List.mem_cons_of_mem c hc3) hne
        (reach_mono (fun e he => ((H1 e).mp he).1) _ _ hr)
    obtain ⟨s2, heq2, hsub2, hts2, hft2⟩ :=
      ihcs s1 hht1 hnd1 (List.nodup_cons.mp hcsnd).2 hkeys1 hhtlt1 hindep1
    refine ⟨s2, ?_, hsub2.trans hsub1, ?_, ?_⟩
    · rw [remove_tag_list_cons, heq1]
      exact heq2
    · intro x tg
      constructor
      · intro hx
        have h2 := (hts2 x tg).mp hx
        have h1 := (hts1 x tg).mp h2.1
        refine ⟨h1.1, ?_⟩
        rintro ⟨c2, hc2, hr⟩
        rcases List.mem_cons.mp hc2 with he | he
        · exact h1.2 (he ▸ hr)
        · exact h2.2 ⟨c2, he, (reach_transfer H1 h1.2).mp hr⟩
      · rintro ⟨hmem, hnr⟩
        have hnc : ¬ Reach s.tags x c := fun hr => hnr ⟨c, List.mem_cons_self c cs, hr⟩
        apply (hts2 x tg).mpr
        refine ⟨(hts1 x tg).mpr ⟨hmem, hnc⟩, ?_⟩
        rintro ⟨c2, hc2, hr⟩
        exact hnr ⟨c2, List.mem_cons_of_mem c hc2, (reach_transfer H1 hnc).mpr hr⟩
    · intro f ids hmem
      obtain ⟨ids1, hids1, hprop1⟩ := hft2 f ids hmem
      obtain ⟨ids0, hids0, hprop0⟩ := hft1 f ids1 hids1
      refine ⟨ids0, hids0, ?_⟩
      intro i hi
      have p1 := hprop1 i hi
      have p0 := hprop0 i p1.1
      refine ⟨p0.1, ?_⟩
      rintro ⟨c2, hc2, hr⟩
      rcases List.mem_cons.mp hc2 with he | he
      · exact p0.2 (he ▸ hr)
      · exact p1.2 ⟨c2, he, (reach_transfer H1 p0.2).mp hr⟩

/-- The main induction for remove_tag: on an acyclic forest (certified by a
height function) with enough fuel, removal of an existing tag succeeds and
removes exactly the tag and its transitive descendants from the tag list,
while every surviving file association shrinks its original entry and
references no removed id. -/
theorem remove_tag_main (ht : String → Nat) : ∀ (fuel : Nat) (s : TagStore) (t : String),
    htOk ht s.tags = true → (keysOf s.tags).Nodup →
    (keysOf s.tags).contains t = true → ht t < fuel →
    ∃ s2, remove_tag fuel s t = Except.ok s2 ∧ s2.tags.Sublist s.tags
      ∧ TagsSpec s.tags (fun x => Reach s.tags x t) s2.tags
      ∧ FtSpec s.file_tags (fun x => Reach s.tags x t) s2.file_tags := by
  intro fuel
  induction fuel with
  | zero =>
    intro s t _ _ _ hlt
    omega
  | succ fuel ihf =>
    intro s t hht hnd hmem hlt
    have hcs_sub : (childrenOf s.tags t).Sublist (keysOf s.tags) := by
      rw [childrenOf, keysOf]
      exact List.Sublist.map Prod.fst (List.filter_sublist s.tags)
    have hcsnd : (childrenOf s.tags t).Nodup := hcs_sub.nodup hnd
    have hkeys : ∀ c ∈ childrenOf s.tags t, (keysOf s.tags).contains c = true := by
      intro c hc
      exact list_contains_iff.mpr (hcs_sub.subset hc)
    have hhtlt : ∀ c ∈ childrenOf s.tags t, ht c < ht t := by
      intro c hc
      obtain ⟨tg, htg, hpar⟩ := childrenOf_mem.mp hc
      exact htOk_lt hht htg hpar
    have hhtfuel : ∀ c ∈ childrenOf s.tags t, ht c < fuel := by
      intro c hc
      have := hhtlt c hc
      omega
    have hindep : ∀ c ∈ childrenOf s.tags t, ∀ c2 ∈ childrenOf s.tags t,
        c ≠ c2 → ¬ Reach s.tags c c2 := by
      intro c hc c2 hc2 hne hr
      obtain ⟨tg, htg, hpar⟩ := childrenOf_mem.mp hc
      cases hr with
      | refl => exact hne rfl
      | @step _ p _ tg3 hmem2 hpar3 hr2 =>
        have he3 : tg3 = tg := key_unique hnd hmem2 htg
        rw [he3, hpar] at hpar3
        have hpt : p = t := (Option.some.inj hpar3).symm
        rw [hpt] at hr2
        have hd := reach_ht hht hr2
        have hlt2 := hhtlt c2 hc2
        cases hd with
        | inl e =>
          rw [e] at hlt2
          omega
        | inr h2 => omega
    obtain ⟨s1, heq1, hsub1, hts1, hft1⟩ :=
      remove_tag_list_main ht fuel ihf (childrenOf s.tags t) s hht hnd hcsnd hkeys hhtfuel hindep
    refine ⟨⟨s1.tags.filter (fun p => p.1 != t), detachTag s1.file_tags t⟩, ?_, ?_, ?_, ?_⟩
    · rw [remove_tag_succ, if_pos hmem, heq1]
    · exact (List.filter_sublist s1.tags).trans hsub1
    · intro x tg
      constructor
      · intro hx
        have hm := List.mem_filter.mp hx
        have h1 := (hts1 x tg).mp hm.1
        have hxt : x ≠ t := by simpa using hm.2
        refine ⟨h1.1, ?_⟩
        intro hr
        rcases reach_to_target.mp hr with he | ⟨c, hc, hrc⟩
        · exact hxt he
        · exact h1.2 ⟨c, hc, hrc⟩
      · rintro ⟨hmem2, hnr⟩
        apply List.mem_filter.mpr
        have hxt : x ≠ t := by
          intro he
          apply hnr
          rw [he]
          exact Reach.refl t
        refine ⟨(hts1 x tg).mpr ⟨hmem2, ?_⟩, by simpa using hxt⟩
        rintro ⟨c, hc, hrc⟩
        exact hnr (reach_to_target.mpr (Or.inr ⟨c, hc, hrc⟩))
    · intro f ids hmem2
      obtain ⟨ids1, hids1, hprop1⟩ := detachTag_mem hmem2
      obtain ⟨ids0, hids0, hprop0⟩ := hft1 f ids1 hids1
      refine ⟨ids0, hids0, ?_⟩
      intro i hi
      have p1 := hprop1 i hi
      have p0 := hprop0 i p1.1
      refine ⟨p0.1, ?_⟩
      intro hr
      rcases reach_to_target.mp hr with he | ⟨c, hc, hrc⟩
      · exact p1.2 he
      · exact p0.2 ⟨c, hc, hrc⟩

/-- Claim C7 (amended): on a tag store whose parent references form an
acyclic forest (certified by a height function ht) and with fuel exceeding
the height of the target, remove_tag on an existing id t succeeds and deletes
exactly t and its transitive descendants from the tag map, and no surviving
file tag set references a deleted id; when additionally no file tag set of
the input references a non-existent id, no surviving file tag set references
a non-existent id afterwards; remove_tag on a missing id returns the named
error (and, being pure, changes nothing). -/
theorem remove_tag_cascade (ht : String → Nat) (fuel : Nat) (s : TagStore) (t : String)
    (hht : htOk ht s.tags = true)
    (hnd : (keysOf s.tags).Nodup)
    (hmem : (keysOf s.tags).contains t = true)
    (hfuel : ht t < fuel) :
    ∃ s2, remove_tag fuel s t = Except.ok s2
      ∧ (∀ x tg, ((x, tg) ∈ s2.tags ↔ ((x, tg) ∈ s.tags ∧ ¬ Reach s.tags x t)))
      ∧ (∀ f ids, (f, ids) ∈ s2.file_tags → ∀ i ∈ ids, ¬ Reach s.tags i t)
      ∧ ((∀ f ids, (f, ids) ∈ s.file_tags → ∀ i ∈ ids, (keysOf s.tags).contains i = true) →
          (∀ f ids, (f, ids) ∈ s2.file_tags → ∀ i ∈ ids, (keysOf s2.tags).contains i = true))
      ∧ (∀ u, (keysOf s.tags).contains u = false →
          remove_tag fuel s u = Except.error ("标签 " ++ u ++ " 不存在")) := by
  obtain ⟨s2, heq, hsub, hts, hft⟩ := remove_tag_main ht fuel s t hht hnd hmem hfuel
  refine ⟨s2, heq, hts, ?_, ?_, ?_⟩
  · intro f ids hm i hi
    obtain ⟨ids0, _, hprop⟩ := hft f ids hm
    exact (hprop i hi).2
  · intro hcons f ids hm i hi
    obtain ⟨ids0, hids0, hprop⟩ := hft f ids hm
    obtain ⟨tg, htg⟩ := keys_contains_iff.mp (hcons f ids0 hids0 i (hprop i hi).1)
    exact keys_contains_iff.mpr ⟨tg, (hts i tg).mpr ⟨htg, (hprop i hi).2⟩⟩
  · intro u hu
    obtain ⟨k, rfl⟩ : ∃ k, fuel = k + 1 := ⟨fuel - 1, by omega⟩
    rw [remove_tag_succ, if_neg (by rw [hu]; simp)]

/-- The store used to refute claim C7 as frozen: one tag, and a file whose
tag set also references a ghost id that never existed. -/
def store7c : TagStore := ⟨[("t", ⟨"t", "", none⟩)], [("f", ["t", "ghost"])]⟩

/-- Claim C7 as frozen is false: the parent references of store7c form an
acyclic forest (the constant height function certifies it) and its only tag
exists, yet after remove_tag the file still references the non-existent
ghost id, so the removal does not leave every file tag set free of
non-existent ids. -/
theorem remove_tag_orphan_counterexample :
    htOk (fun _ => 0) store7c.tags = true
      ∧ (keysOf store7c.tags).Nodup
      ∧ (keysOf store7c.tags).contains "t" = true
      ∧ remove_tag 2 store7c "t" = Except.ok ⟨[], [("f", ["ghost"])]⟩
      ∧ ("f", ["ghost"]) ∈ (⟨[], [("f", ["ghost"])]⟩ : TagStore).file_tags
      ∧ "ghost" ∈ ["ghost"]
      ∧ (keysOf (⟨[], [("f", ["ghost"])]⟩ : TagStore).tags).contains "ghost" = false :=
  ⟨by decide, by decide, by decide, rfl, by decide, by decide, by decide⟩

/-- A small acyclic store with a parent, one child, and file associations,
used to instantiate the cascade theorem. -/
def store7 : TagStore :=
  ⟨[("p", ⟨"P", "", none⟩), ("c", ⟨"C", "", some "p"⟩)], [("f", ["c"]), ("g", ["p", "z"])]⟩

/-- Height certificate for store7. -/
def ht7 : String → Nat := fun x => if x = "p" then 1 else 0

theorem remove_tag_cascade_witness :
    htOk ht7 store7.tags = true ∧ (keysOf store7.tags).Nodup
      ∧ (keysOf store7.tags).contains "p" = true ∧ ht7 "p" < 2
      ∧ ∃ s2, remove_tag 2 store7 "p" = Except.ok s2
        ∧ (∀ x tg, ((x, tg) ∈ s2.tags ↔ ((x, tg) ∈ store7.tags ∧ ¬ Reach store7.tags x "p")))
        ∧ (∀ f ids, (f, ids) ∈ s2.file_tags → ∀ i ∈ ids, ¬ Reach store7.tags i "p")
        ∧ ((∀ f ids, (f, ids) ∈ store7.file_tags →
              ∀ i ∈ ids, (keysOf store7.tags).contains i = true) →
            (∀ f ids, (f, ids) ∈ s2.file_tags → ∀ i ∈ ids, (keysOf s2.tags).contains i = true))
        ∧ (∀ u, (keysOf store7.tags).contains u = false →
            remove_tag 2 store7 u = Except.error ("标签 " ++ u ++ " 不存在")) :=
  ⟨by decide, by decide, by decide, by decide,
    remove_tag_cascade ht7 2 store7 "p" (by decide) (by decide) (by decide) (by decide)⟩

/-! ## Order facts for the sorted query results -/

theorem lexLe_total : ∀ as bs : List Char, lexLe as bs = true ∨ lexLe bs as = true := by
  intro as
  induction as with
  | nil => intro bs; left; rfl
  | cons a as ih =>
    intro bs
    cases bs with
    | nil => right; rfl
    | cons b bs2 =>
      by_cases hab : (a == b) = true
      · have he : a = b := eq_of_beq hab
        subst he
        simp only [lexLe, beq_self_eq_true, if_true]
        exact ih bs2
      · have hne : a ≠ b := by simpa using hab
        have hab2 : (a == b) = false := by simpa using hab
        have hba2 : (b == a) = false := by simpa using hne.symm
        rcases lt_or_gt_of_ne hne with hlt | hgt
        · left
          simp [lexLe, hab2, hlt]
        · right
          simp [lexLe, hba2, hgt]

theorem lexLe_trans : ∀ as bs cs2 : List Char,
    lexLe as bs = true → lexLe bs cs2 = true → lexLe as cs2 = true := by
  intro as
  induction as with
  | nil => intro bs cs2 _ _; rfl
  | cons a as ih =>
    intro bs cs2 h1 h2
    cases bs with
    | nil => simp [lexLe] at h1
    | cons b bs2 =>
      cases cs2 with
      | nil => simp [lexLe] at h2
      | cons c0 cs3 =>
        by_cases hab : (a == b) = true
        · have hea : a = b := eq_of_beq hab
          subst hea
          simp only [lexLe, beq_self_eq_true, if_true] at h1
          by_cases hac : (a == c0) = true
          · have hea2 : a = c0 := eq_of_beq hac
            subst hea2
            simp only [lexLe, beq_self_eq_true, if_true] at h2 ⊢
            exact ih bs2 cs3 h1 h2
          · have hac2 : (a == c0) = false := by simpa using hac
            simp only [lexLe, hac2, Bool.false_eq_true, if_false] at h2 ⊢
            exact h2
        · have hab2 : (a == b) = false := by simpa using hab
          have hlt1 : a < b := by
            simp only [lexLe, hab2, Bool.false_eq_true, if_false] at h1
            exact of_decide_eq_true h1
          by_cases hbc : (b == c0) = true
          · have heb : b = c0 := eq_of_beq hbc
            subst heb
            simp [lexLe, hab2, hlt1]
          · have hbc2 : (b == c0) = false := by simpa using hbc
            have hlt2 : b < c0 := by
              simp only [lexLe, hbc2, Bool.false_eq_true, if_false] at h2
              exact of_decide_eq_true h2
            have hlt3 : a < c0 := lt_trans hlt1 hlt2
            have hac2 : (a == c0) = false := by simpa using ne_of_lt hlt3
            simp [lexLe, hac2, hlt3]

instance : IsTotal String (fun a b => lexLe a.data b.data = true) :=
  ⟨fun a b => lexLe_total a.data b.data⟩

instance : IsTrans String (fun a b => lexLe a.data b.data = true) :=
  ⟨fun _ _ _ h1 h2 => lexLe_trans _ _ _ h1 h2⟩

/-- Claim C8 (amended): on a store whose file keys are normpath-normalized
and pairwise distinct, and for a nonempty query every id of which exists,
find_files_by_tags with match_all returns exactly the files whose tag set
contains every queried id, and without match_all exactly those whose tag set
meets the query; the result is sorted in the code-point order Python uses
and has no duplicates. -/
theorem find_files_by_tags_exact (s : TagStore) (tag_ids : List String) (match_all : Bool)
    (hne : tag_ids ≠ [])
    (hex : ∀ i ∈ tag_ids, (keysOf s.tags).contains i = true)
    (hnorm : ∀ f ∈ keysOf s.file_tags, normpath f = f)
    (hnd : (keysOf s.file_tags).Nodup) :
    ∃ r, find_files_by_tags s tag_ids match_all = Except.ok r
      ∧ (∀ x, x ∈ r ↔ ∃ ids, (x, ids) ∈ s.file_tags ∧
          (if match_all then (∀ i ∈ tag_ids, i ∈ ids) else (∃ i ∈ tag_ids, i ∈ ids)))
      ∧ List.Sorted (fun a b => lexLe a.data b.data = true) r
      ∧ r.Nodup := by
  have hne2 : tag_ids.isEmpty = false := by
    cases tag_ids with
    | nil => exact absurd rfl hne
    | cons i l => rfl
  have hfind : tag_ids.find? (fun i => !((keysOf s.tags).contains i)) = none :=
    List.find?_eq_none.mpr (fun x hx => by rw [hex x hx]; simp)
  refine ⟨sortStrings ((s.file_tags.filter (fun e =>
      if match_all then tag_ids.all (fun i => e.2.contains i)
      else tag_ids.any (fun i => e.2.contains i))).map (fun e => normpath e.1)),
    ?_, ?_, ?_, ?_⟩
  · rw [find_files_by_tags, hne2]
    simp only [Bool.false_eq_true, if_false, hfind]
  · intro x
    rw [sortStrings, List.mem_insertionSort, List.mem_map]
    constructor
    · rintro ⟨e, he, hX⟩
      have hef := List.mem_filter.mp he
      have hkey : e.1 ∈ keysOf s.file_tags := List.mem_map_of_mem Prod.fst hef.1
      have hxe : x = e.1 := by rw [← hX]; exact hnorm e.1 hkey
      refine ⟨e.2, ?_, ?_⟩
      · rw [hxe]
        simpa using hef.1
      · have hcond := hef.2
        by_cases hm : match_all = true
        · simp only [hm, if_true] at hcond ⊢
          intro i hi
          exact list_contains_iff.mp (List.all_eq_true.mp hcond i hi)
        · have hm2 : match_all = false := by simpa using hm
          simp only [hm2, Bool.false_eq_true, if_false] at hcond ⊢
          obtain ⟨i, hi, hci⟩ := List.any_eq_true.mp hcond
          exact ⟨i, hi, list_contains_iff.mp hci⟩
    · rintro ⟨ids, hmem, hcond⟩
      refine ⟨(x, ids), List.mem_filter.mpr ⟨hmem, ?_⟩, ?_⟩
      · by_cases hm : match_all = true
        · simp only [hm, if_true] at hcond ⊢
          exact List.all_eq_true.mpr (fun i hi => list_contains_iff.mpr (hcond i hi))
        · have hm2 : match_all = false := by simpa using hm
          simp only [hm2, Bool.false_eq_true, if_false] at hcond ⊢
          obtain ⟨i, hi, hci⟩ := hcond
          exact List.any_eq_true.mpr ⟨i, hi, list_contains_iff.mpr hci⟩
      · exact hnorm x (List.mem_map_of_mem Prod.fst hmem)
  · exact List.sorted_insertionSort _ _
  · have hmapeq : (s.file_tags.filter (fun e =>
        if match_all then tag_ids.all (fun i => e.2.contains i)
        else tag_ids.any (fun i => e.2.contains i))).map (fun e => normpath e.1)
        = (s.file_tags.filter (fun e =>
            if match_all then tag_ids.all (fun i => e.2.contains i)
            else tag_ids.any (fun i => e.2.contains i))).map (fun e => e.1) :=
      List.map_congr_left (fun e he =>
        hnorm e.1 (List.mem_map_of_mem Prod.fst (List.mem_filter.mp he).1))
    have hnodup : ((s.file_tags.filter (fun e =>
        if match_all then tag_ids.all (fun i => e.2.contains i)
        else tag_ids.any (fun i => e.2.contains i))).map (fun e => normpath e.1)).Nodup := by
      rw [hmapeq]
      exact (List.Sublist.map _ (List.filter_sublist _)).nodup hnd
    exact ((List.perm_insertionSort _ _).nodup_iff).mpr hnodup

/-- The store used to refute claim C8 as frozen: one tag attached to two
distinct file keys that normalize to the same path. -/
def store8c : TagStore := ⟨[("t", ⟨"t", "", none⟩)], [("a//b", ["t"]), ("a/b", ["t"])]⟩

/-- Claim C8 as frozen is false: find_files_by_tags can return a list with
duplicates, because the source appends the normalized form of each matching
key and two distinct keys may normalize to the same path. -/
theorem find_files_by_tags_duplicates_counterexample :
    find_files_by_tags store8c ["t"] false = Except.ok ["a/b", "a/b"]
      ∧ ¬ (["a/b", "a/b"] : List String).Nodup :=
  ⟨rfl, by decide⟩

/-- A store with normalized distinct keys instantiating the amended lookup
theorem. -/
def store8 : TagStore :=
  ⟨[("t", ⟨"t", "", none⟩), ("u", ⟨"u", "", none⟩)], [("b", ["t"]), ("a", ["t", "u"])]⟩

theorem find_files_by_tags_exact_witness :
    (["t"] : List String) ≠ []
      ∧ (∀ i ∈ (["t"] : List String), (keysOf store8.tags).contains i = true)
      ∧ (∀ f ∈ keysOf store8.file_tags, normpath f = f)
      ∧ (keysOf store8.file_tags).Nodup
      ∧ ∃ r, find_files_by_tags store8 ["t"] false = Except.ok r
        ∧ (∀ x, x ∈ r ↔ ∃ ids, (x, ids) ∈ store8.file_tags ∧
            (if false then (∀ i ∈ (["t"] : List String), i ∈ ids)
             else (∃ i ∈ (["t"] : List String), i ∈ ids)))
        ∧ List.Sorted (fun a b => lexLe a.data b.data = true) r
        ∧ r.Nodup :=
  ⟨by decide, by decide, by decide, by decide,
    find_files_by_tags_exact store8 ["t"] false (by decide) (by decide) (by decide) (by decide)⟩

/-! ## The no-empty-tag-set invariant -/

/-- The invariant of claim C10: the file-tags dict has no entry whose tag
set is empty. -/
def NoEmptyFileSets (s : TagStore) : Bool := s.file_tags.all (fun e => !(e.2.isEmpty))

theorem noEmpty_iff {s : TagStore} :
    NoEmptyFileSets s = true ↔ ∀ f ids, (f, ids) ∈ s.file_tags → ids ≠ [] := by
  rw [NoEmptyFileSets, List.all_eq_true]
  constructor
  · intro h f ids hm he
    have h2 := h (f, ids) hm
    rw [he] at h2
    simp at h2
  · intro h e he
    have h2 := h e.1 e.2 (by simpa using he)
    cases he2 : e.2 with
    | nil => exact absurd he2 h2
    | cons a l => rfl

theorem detachTag_no_empty {ft : List (String × List String)} {t : String}
    (h : ∀ f ids, (f, ids) ∈ ft → ids ≠ []) :
    ∀ f ids, (f, ids) ∈ detachTag ft t → ids ≠ [] := by
  intro f ids hm
  rw [detachTag] at hm
  obtain ⟨e, he, hfn⟩ := List.mem_filterMap.mp hm
  by_cases hc : e.2.contains t = true
  · rw [if_pos hc] at hfn
    by_cases hemp : (e.2.filter (fun i => i != t)).isEmpty = true
    · rw [if_pos hemp] at hfn
      cases hfn
    · rw [if_neg hemp] at hfn
      have h2 : ids = e.2.filter (fun i => i != t) :=
        (congrArg Prod.snd (Option.some.inj hfn)).symm
      rw [h2]
      intro he2
      apply hemp
      rw [List.isEmpty_iff]
      exact he2
  · rw [if_neg hc] at hfn
    have h2 : ids = e.2 := (congrArg Prod.snd (Option.some.inj hfn)).symm
    rw [h2]
    exact h e.1 e.2 (by simpa using he)

/-- Preservation of the no-empty-set invariant through the child-removal
loop, given preservation by single removals at the same fuel. -/
theorem remove_tag_list_no_empty (fuel : Nat)
    (htag : ∀ s t s2, remove_tag fuel s t = Except.ok s2 →
      (∀ f ids, (f, ids) ∈ s.file_tags → ids ≠ []) →
      (∀ f ids, (f, ids) ∈ s2.file_tags → ids ≠ [])) :
    ∀ cs (s s2 : TagStore), remove_tag_list fuel s cs = Except.ok s2 →
      (∀ f ids, (f, ids) ∈ s.file_tags → ids ≠ []) →
      (∀ f ids, (f, ids) ∈ s2.file_tags → ids ≠ []) := by
  intro cs
  induction cs with
  | nil =>
    intro s s2 h hInv
    rw [remove_tag_list_nil] at h
    cases h
    exact hInv
  | cons c cs ihc =>
    intro s s2 h hInv
    rw [remove_tag_list_cons] at h
    cases hr : remove_tag fuel s c with
    | error e =>
      rw [hr] at h
      simp at h
    | ok s1 =>
      rw [hr] at h
      exact ihc s1 s2 h (htag s c s1 hr hInv)

theorem remove_tag_no_empty : ∀ fuel (s : TagStore) (t : String) (s2 : TagStore),
    remove_tag fuel s t = Except.ok s2 →
    (∀ f ids, (f, ids) ∈ s.file_tags → ids ≠ []) →
    (∀ f ids, (f, ids) ∈ s2.file_tags → ids ≠ []) := by
  intro fuel
  induction fuel with
  | zero =>
    intro s t s2 h
    simp [remove_tag] at h
  | succ fuel ihf =>
    intro s t s2 h hInv
    rw [remove_tag_succ] at h
    split at h
    · split at h
      · exact absurd h (by simp)
      · rename_i s1 heq
        cases h
        exact detachTag_no_empty (remove_tag_list_no_empty fuel ihf _ s s1 heq hInv)
    · exact absurd h (by simp)

/-- Claim C10: every mutating TagManager operation preserves the invariant
that no file-tags entry carries an empty tag set: whenever the last id is
removed from a file's set, the entry is deleted entirely. -/
theorem tag_mutations_preserve_no_empty_sets (s : TagStore) (fp t : String) (fuel : Nat)
    (hInv : NoEmptyFileSets s = true) :
    ((∀ s2, add_tag_to_file s fp t = Except.ok s2 → NoEmptyFileSets s2 = true)
      ∧ NoEmptyFileSets (remove_tag_from_file s fp t) = true
      ∧ (∀ s2, remove_tag fuel s t = Except.ok s2 → NoEmptyFileSets s2 = true)) := by
  have hInv2 := noEmpty_iff.mp hInv
  refine ⟨?_, ?_, ?_⟩
  · intro s2 h
    rw [add_tag_to_file] at h
    split at h
    · split at h
      · cases h
        apply noEmpty_iff.mpr
        intro f ids hm
        simp only at hm
        obtain ⟨e, he, hfe⟩ := List.mem_map.mp hm
        by_cases hef : (e.1 == normpath fp) = true
        · rw [if_pos hef] at hfe
          have h2 : ids = (if e.2.contains t = true then e.2 else e.2 ++ [t]) :=
            (congrArg Prod.snd hfe).symm
          rw [h2]
          split
          · exact hInv2 e.1 e.2 (by simpa using he)
          · simp
        · rw [if_neg hef] at hfe
          have h2 : ids = e.2 := (congrArg Prod.snd hfe).symm
          rw [h2]
          exact hInv2 e.1 e.2 (by simpa using he)
      · cases h
        apply noEmpty_iff.mpr
        intro f ids hm
        simp only at hm
        rcases List.mem_append.mp hm with hold | hnew
        · exact hInv2 f ids hold
        · have h2 : ids = [t] := congrArg Prod.snd (List.mem_singleton.mp hnew)
          rw [h2]
          simp
    · cases h
  · rw [remove_tag_from_file]
    split
    · apply noEmpty_iff.mpr
      intro f ids hm
      simp only at hm
      obtain ⟨e, he, hfn⟩ := List.mem_filterMap.mp hm
      by_cases hef : (e.1 == normpath fp) = true
      · rw [if_pos hef] at hfn
        by_cases hemp : (e.2.filter (fun i => i != t)).isEmpty = true
        · rw [if_pos hemp] at hfn
          cases hfn
        · rw [if_neg hemp] at hfn
          have h2 : ids = e.2.filter (fun i => i != t) :=
            (congrArg Prod.snd (Option.some.inj hfn)).symm
          rw [h2]
          intro he2
          apply hemp
          rw [List.isEmpty_iff]
          exact he2
      · rw [if_neg hef] at hfn
        have h2 : ids = e.2 := (congrArg Prod.snd (Option.some.inj hfn)).symm
        rw [h2]
        exact hInv2 e.1 e.2 (by simpa using he)
    · exact hInv
  · intro s2 h
    exact noEmpty_iff.mpr (remove_tag_no_empty fuel s t s2 h hInv2)

/-- A store satisfying the invariant, to instantiate claim C10. -/
def store10 : TagStore := ⟨[("t", ⟨"t", "", none⟩)], [("f", ["t"])]⟩

theorem tag_mutations_preserve_no_empty_sets_witness :
    NoEmptyFileSets store10 = true
      ∧ ((∀ s2, add_tag_to_file store10 "g" "t" = Except.ok s2 → NoEmptyFileSets s2 = true)
        ∧ NoEmptyFileSets (remove_tag_from_file store10 "g" "t") = true
        ∧ (∀ s2, remove_tag 2 store10 "t" = Except.ok s2 → NoEmptyFileSets s2 = true)) :=
  ⟨by decide, tag_mutations_preserve_no_empty_sets store10 "g" "t" 2 (by decide)⟩

/-! ## Concrete instances for the FileManager claims -/

/-- A state tracking one directory with three files and two subdirectories,
instantiating the cascade-delete claim. -/
def state1 : FMState :=
  ⟨"/r", ["*"], [], true,
   [("/r/d/f1.txt", ⟨1, 1, 1, "d/f1.txt"⟩), ("/r/d/f2.txt", ⟨2, 2, 2, "d/f2.txt"⟩),
    ("/r/d/s1/f3.txt", ⟨3, 3, 3, "d/s1/f3.txt"⟩)],
   ["/r", "/r/d", "/r/d/s1", "/r/d/s2"]⟩

theorem deleted_tracked_directory_cascades_witness :
    state1.directories.contains "/r/d" = true
      ∧ (on_deleted state1 "/r/d").2.length = 6
      ∧ (on_deleted state1 "/r/d").1.files = []
      ∧ (on_deleted state1 "/r/d").1.directories = ["/r"] := by
  have h := deleted_tracked_directory_cascades state1 "/r/d" (by decide)
  refine ⟨by decide, ?_, by decide, by decide⟩
  rw [h.2.1]
  decide

theorem excluded_file_decided_by_reincludes_witness :
    should_include_file_rel ["!!temp/keep/*"] ["temp/*"] "temp/keep/file.txt" = true
      ∧ should_include_file_rel ["!!temp/keep/*"] ["temp/*"] "temp/other/file.txt" = false := by
  constructor
  · rw [excluded_file_decided_by_reincludes ["!!temp/keep/*"] ["temp/*"]
      "temp/keep/file.txt" (by decide)]
    decide
  · rw [excluded_file_decided_by_reincludes ["!!temp/keep/*"] ["temp/*"]
      "temp/other/file.txt" (by decide)]
    decide

theorem directory_default_included_witness :
    should_include_directory_rel ["*.py"] [] "docs" = true :=
  (directory_default_included ["*.py"] [] "docs").1 (by decide)

/-- A state tracking one text file, instantiating the move-across-boundary
claim. -/
def state4 : FMState :=
  ⟨"/r", ["*.txt"], [], true, [("/r/a.txt", ⟨5, 1, 2, "a.txt"⟩)], ["/r"]⟩

theorem moved_tracked_file_witness :
    state4.directories.contains "/r/a.txt" = false
      ∧ (keysOf state4.files).contains "/r/a.txt" = true
      ∧ (on_moved state4 "/r/a.txt" "/r/a.md" ⟨5, 1, 3⟩).2 = [("deleted", "/r/a.txt", none)]
      ∧ (on_moved state4 "/r/a.txt" "/r/b.txt" ⟨5, 1, 3⟩).2
          = [("moved", "/r/a.txt", some "/r/b.txt")] := by
  refine ⟨by decide, by decide, ?_, ?_⟩
  · exact ((moved_tracked_file state4 "/r/a.txt" "/r/a.md" ⟨5, 1, 3⟩
      (by decide) (by decide)).2 (by decide)).2.1
  · exact ((moved_tracked_file state4 "/r/a.txt" "/r/b.txt" ⟨5, 1, 3⟩
      (by decide) (by decide)).1 (by decide)).2

/-- A configured state with a file record, instantiating the snapshot
round-trip claim. -/
def state5 : FMState :=
  ⟨"/r", ["*.py"], ["temp/*"], true, [("/r/x.py", ⟨1, 2, 3, "x.py"⟩)], ["/r"]⟩

/-- A snapshot recorded for a different root. -/
def snap5 : Snapshot := ⟨"/other", [], [], [], [], false⟩

theorem snapshot_round_trip_witness :
    snap5.root_dir ≠ state5.root_dir
      ∧ load_data state5 (some (save_data state5)) = state5
      ∧ load_data state5 (some snap5) = state5 := by
  have h := snapshot_round_trip state5 snap5 (by decide)
  exact ⟨by decide, h.1, h.2⟩

/-- A state tracking a directory and a file beneath it, instantiating the
directory-move frame claim. -/
def state9 : FMState :=
  ⟨"/r", ["*"], [], true, [("/r/d/a.txt", ⟨1, 1, 1, "d/a.txt"⟩)], ["/r", "/r/d"]⟩

theorem moved_tracked_directory_frame_witness :
    state9.directories.contains "/r/d" = true
      ∧ (on_moved state9 "/r/d" "/r/e" ⟨0, 0, 0⟩).1.files = state9.files :=
  ⟨by decide, (moved_tracked_directory_frame state9 "/r/d" "/r/e" ⟨0, 0, 0⟩ (by decide)).1⟩

end FileTagManager
